import Mathlib

/-!
Verification of the plainsong chord-sheet parser and LaTeX renderer
(`src/plainsong.rs`).  The Rust code is shallowly embedded: strings are
`List Char`, the chord regular expression is an explicit regex syntax tree
matched with Brzozowski derivatives (proved correct against an inductive
matching relation below), fallible rendering code (which can panic in Rust)
returns `Option`.
-/

namespace Plainsong

/-! ## Regular expressions with Brzozowski derivatives -/

/-- Regex syntax tree: empty language, empty string, single character,
alternation, concatenation, Kleene star. -/
inductive RE : Type where
  | emp : RE
  | eps : RE
  | ch : Char → RE
  | alt : RE → RE → RE
  | cat : RE → RE → RE
  | star : RE → RE
deriving DecidableEq, Repr

/-- The matching relation: `Matches r s` holds iff the whole string `s`
belongs to the language of `r` (anchored matching, as `^...$`). -/
inductive Matches : RE → List Char → Prop where
  | eps : Matches RE.eps []
  | ch (c : Char) : Matches (RE.ch c) [c]
  | altL {r1 r2 : RE} {s : List Char} : Matches r1 s → Matches (RE.alt r1 r2) s
  | altR {r1 r2 : RE} {s : List Char} : Matches r2 s → Matches (RE.alt r1 r2) s
  | cat {r1 r2 : RE} {s1 s2 : List Char} :
      Matches r1 s1 → Matches r2 s2 → Matches (RE.cat r1 r2) (s1 ++ s2)
  | starNil {r : RE} : Matches (RE.star r) []
  | starCons {r : RE} {s1 s2 : List Char} :
      Matches r s1 → Matches (RE.star r) s2 → Matches (RE.star r) (s1 ++ s2)

/-- Does the regex accept the empty string? -/
def nullable : RE → Bool
  | .emp => false
  | .eps => true
  | .ch _ => false
  | .alt r1 r2 => nullable r1 || nullable r2
  | .cat r1 r2 => nullable r1 && nullable r2
  | .star _ => true

/-- Smart alternation (drops `emp` alternatives; same language). -/
def mkAlt (r1 r2 : RE) : RE :=
  if r1 = RE.emp then r2 else if r2 = RE.emp then r1 else RE.alt r1 r2

/-- Smart concatenation (collapses `emp` and `eps`; same language). -/
def mkCat (r1 r2 : RE) : RE :=
  if r1 = RE.emp then RE.emp
  else if r2 = RE.emp then RE.emp
  else if r1 = RE.eps then r2
  else if r2 = RE.eps then r1
  else RE.cat r1 r2

/-- Brzozowski derivative of a regex by one character. -/
def deriv : RE → Char → RE
  | .emp, _ => RE.emp
  | .eps, _ => RE.emp
  | .ch c, a => if a = c then RE.eps else RE.emp
  | .alt r1 r2, a => mkAlt (deriv r1 a) (deriv r2 a)
  | .cat r1 r2, a =>
      if nullable r1 then mkAlt (mkCat (deriv r1 a) r2) (deriv r2 a)
      else mkCat (deriv r1 a) r2
  | .star r, a => mkCat (deriv r a) (RE.star r)

/-- Executable anchored matcher: derive by every character, test nullability. -/
def reMatch (r : RE) (s : List Char) : Bool :=
  nullable (s.foldl deriv r)

/-- Alternation of a list of regexes. -/
def alts (rs : List RE) : RE := rs.foldr RE.alt RE.emp

/-- Alternation of single characters, e.g. `(C|D|E|F|G|A|B)`. -/
def chAlts (cs : List Char) : RE := alts (cs.map RE.ch)

/-- A literal string, e.g. `sus`. -/
def lit : List Char → RE
  | [] => RE.eps
  | c :: cs => RE.cat (RE.ch c) (lit cs)

/-- `r?`: the regex made optional. -/
def opt (r : RE) : RE := RE.alt r RE.eps

/-! ## The chord grammar

`CHORD_REGEX` from `plainsong.rs` lines 4-5:
`^(C|D|E|F|G|A|B)(b|#)?(m|M|min|maj|dim|Δ|°|ø|Ø)?((sus|add)?(b|#)?(2|4|5|6|7|9|10|11|13)?)*(\+|aug|alt)?(/(C|D|E|F|G|A|B)(b|#)?)?$`
-/

/-- `(C|D|E|F|G|A|B)` in the order written in `CHORD_REGEX`. -/
def rootCode : RE := chAlts ['C', 'D', 'E', 'F', 'G', 'A', 'B']

/-- `(b|#)?` without the `?`. -/
def accidental : RE := chAlts ['b', '#']

/-- `(m|M|min|maj|dim|Δ|°|ø|Ø)` -/
def quality : RE :=
  alts [RE.ch 'm', RE.ch 'M', lit ['m','i','n'], lit ['m','a','j'],
        lit ['d','i','m'], RE.ch 'Δ', RE.ch '°', RE.ch 'ø', RE.ch 'Ø']

/-- `(2|4|5|6|7|9|10|11|13)` -/
def degree : RE :=
  alts [lit ['2'], lit ['4'], lit ['5'], lit ['6'], lit ['7'], lit ['9'],
        lit ['1','0'], lit ['1','1'], lit ['1','3']]

/-- One extension group `(sus|add)?(b|#)?(2|4|5|6|7|9|10|11|13)?`. -/
def extension : RE :=
  RE.cat (opt (alts [lit ['s','u','s'], lit ['a','d','d']]))
    (RE.cat (opt accidental) (opt degree))

/-- `(\+|aug|alt)` -/
def alteration : RE := alts [RE.ch '+', lit ['a','u','g'], lit ['a','l','t']]

/-- `/(C|D|E|F|G|A|B)(b|#)?` -/
def slashCode : RE := RE.cat (RE.ch '/') (RE.cat rootCode (opt accidental))

/-- The whole anchored `CHORD_REGEX` as a regex syntax tree. -/
def chordRE : RE :=
  RE.cat rootCode
    (RE.cat (opt accidental)
      (RE.cat (opt quality)
        (RE.cat (RE.star extension)
          (RE.cat (opt alteration) (opt slashCode)))))

/-- Modelled from the spec, §4.1: `root := one of A B C D E F G` (a set,
written here in the spec's order); the remaining productions are written
exactly as the spec lists them. -/
def rootSpec : RE := chAlts ['A', 'B', 'C', 'D', 'E', 'F', 'G']

/-- Modelled from the spec, §4.1: `slash := '/' root accidental?`. -/
def slashSpec : RE := RE.cat (RE.ch '/') (RE.cat rootSpec (opt accidental))

/-- Modelled from the spec, §4.1: the anchored chord grammar
`chord := root accidental? quality? extension* alteration? slash?`. -/
def specChordRE : RE :=
  RE.cat rootSpec
    (RE.cat (opt accidental)
      (RE.cat (opt quality)
        (RE.cat (RE.star extension)
          (RE.cat (opt alteration) (opt slashSpec)))))

/-- `SongParser::is_chord`: anchored match of `CHORD_REGEX`. -/
def is_chord (text : List Char) : Bool := reMatch chordRE text

/-! ## Document model (structs of `plainsong.rs`) -/

/-- `SongChord { name: String, pos: u32 }` (positions fit in `Nat`). -/
structure SongChord where
  name : List Char
  pos : Nat
deriving DecidableEq, Repr

/-- `SongLine { text: String, chords: Vec<SongChord> }` -/
structure SongLine where
  text : List Char
  chords : List SongChord
deriving DecidableEq, Repr

/-- `SongPart { name: String, lines: Vec<SongLine> }` -/
structure SongPart where
  name : List Char
  lines : List SongLine
deriving DecidableEq, Repr

/-- `Song { title, metadata, parts }`.  The `HashMap` is modelled as the
association list of insertions, newest first; lookup takes the newest
binding, matching `HashMap::insert`'s overwrite semantics. -/
structure Song where
  title : List Char
  metadata : List (List Char × List Char)
  parts : List SongPart
deriving DecidableEq, Repr

/-- `HashMap::get`: value of the newest insertion for the key. -/
def getMeta (m : List (List Char × List Char)) (k : List Char) : Option (List Char) :=
  (m.find? (fun p => p.1 == k)).map (fun p => p.2)

/-- `SongPart::is_empty` -/
def SongPart.is_empty (pt : SongPart) : Bool := pt.name.isEmpty && pt.lines.isEmpty

/-- `SongParserState` -/
inductive PState : Type where
  | START : PState
  | DEFINITION : PState
  | BODY : PState
deriving DecidableEq, Repr

/-- `SongParser` -/
structure SongParser where
  song : Song
  state : PState
  last_chords : List SongChord
  part : SongPart
deriving DecidableEq, Repr

/-- `SongParser::default()` -/
def defaultParser : SongParser :=
  ⟨⟨[], [], []⟩, PState.START, [], ⟨[], []⟩⟩

/-! ## Rust string primitives -/

/-- `char::is_whitespace` (and regex `\s`): the Unicode `White_Space` set. -/
def isWs (c : Char) : Bool :=
  c ∈ ['\t', '\n', '\u000B', '\u000C', '\r', ' ', '\u0085', ' ',
       ' ', ' ', ' ', ' ', ' ', ' ', ' ',
       ' ', ' ', ' ', ' ', ' ', ' ', ' ',
       ' ', ' ', '　']

/-- `str::trim`: strip `White_Space` from both ends. -/
def rustTrim (l : List Char) : List Char :=
  ((l.dropWhile isWs).reverse.dropWhile isWs).reverse

/-- One piece of `str::split_inclusive('\n')`: split after every `'\n'`,
keeping the terminator; an empty input yields no pieces. -/
def splitInclNl : List Char → List (List Char)
  | [] => []
  | c :: rest =>
      if c = '\n' then ['\n'] :: splitInclNl rest
      else
        match splitInclNl rest with
        | [] => [[c]]
        | p :: ps => (c :: p) :: ps

/-- The per-piece map of `str::lines`: strip one trailing `'\n'`, and then
one trailing `'\r'` only if a `'\n'` was stripped. -/
def lineMap (l : List Char) : List Char :=
  if l.getLast? = some '\n' then
    let s := l.dropLast
    if s.getLast? = some '\r' then s.dropLast else s
  else l

/-- `str::lines` -/
def rustLines (content : List Char) : List (List Char) :=
  (splitInclNl content).map lineMap

/-! ## Chord line extraction (`SongParser::parse_chords`) -/

/-- The loop of `SongParser::parse_chords`, with its state (current word,
chords so far, running char index `pos`, current token start `start`) made
explicit; `none` is the early `return None`. -/
def parseChordsGo : List Char → List Char → List SongChord → Nat → Nat →
    Option (List SongChord)
  | [], word, chords, _pos, start =>
      if word.isEmpty then some chords
      else if is_chord word then some (chords ++ [⟨word, start⟩]) else none
  | c :: cs, word, chords, pos, start =>
      if c = ' ' then
        if word.isEmpty then parseChordsGo cs [] chords (pos + 1) (pos + 1)
        else if is_chord word then
          parseChordsGo cs [] (chords ++ [⟨word, start⟩]) (pos + 1) (pos + 1)
        else none
      else parseChordsGo cs (word ++ [c]) chords (pos + 1) start

/-- `SongParser::parse_chords` -/
def parse_chords (line : List Char) : Option (List SongChord) :=
  parseChordsGo line [] [] 0 0

/-- The space-delimited tokens of a line with their start indices: the
specification-side view of a chord line ("maximal space-delimited runs of
non-space characters", each paired with its start index). -/
def wordsPos : List Char → Nat → List (List Char × Nat)
  | [], _ => []
  | c :: rest, i =>
      if c = ' ' then wordsPos rest (i + 1)
      else
        (c :: rest.takeWhile (fun x => x ≠ ' '), i) ::
          wordsPos (rest.dropWhile (fun x => x ≠ ' '))
            (i + (1 + (rest.takeWhile (fun x => x ≠ ' ')).length))
termination_by l _ => l.length
decreasing_by
  · simp only [List.length_cons]; omega
  · have h := (List.dropWhile_suffix (l := rest)
      (p := fun x => decide (x ≠ ' '))).length_le
    simp only [List.length_cons]
    omega

/-! ## Metadata and part-header patterns

`parse_metadata` tests `^\s*(.*): (.*)\s*$` (Rust regex crate, leftmost-first
greedy semantics): `\s*` takes the maximal whitespace prefix, the first `(.*)`
(which cannot cross `'\n'`) extends to the last `": "` of the line, the second
`(.*)` then extends to the next `'\n'` or the end, and the trailing `\s*$`
forces whatever follows that `'\n'` to be whitespace. -/

/-- Index of the last `": "` occurrence in `p` (position of the `':'`). -/
def lastSepIdx (p : List Char) : Option Nat :=
  ((List.range p.length).filter
    (fun i => (p[i]? == some ':') && (p[i + 1]? == some ' '))).getLast?

/-- `SongParser::parse_metadata`'s regex match: `some (key, value)` on
success.  (The Rust method also inserts into the map; the insertion is done
by `parse_line` below.) -/
def parse_metadata (line : List Char) : Option (List Char × List Char) :=
  let r := line.dropWhile isWs
  let p := r.takeWhile (fun x => x ≠ '\n')
  match lastSepIdx p with
  | none => none
  | some i =>
      if (r.dropWhile (fun x => x ≠ '\n')).all isWs then
        some (p.take i, (r.drop (i + 2)).takeWhile (fun x => x ≠ '\n'))
      else none

/-- The part-header regex `^\s*(.*):$` of `SongParser::parse_part`:
maximal whitespace prefix, then a `'\n'`-free capture, then a final `':'`
at the very end of the line. -/
def partName (line : List Char) : Option (List Char) :=
  let r := line.dropWhile isWs
  if (r.getLast? == some ':') && r.dropLast.all (fun x => x ≠ '\n') then
    some r.dropLast
  else none

/-! ## The parser state machine -/

/-- `SongParser::parse_part` -/
def SongParser.parse_part (p : SongParser) (line : List Char) : SongParser :=
  match (if p.part.is_empty then partName line else none) with
  | some n => { p with part := ⟨n, p.part.lines⟩ }
  | none =>
      match parse_chords line with
      | some cs =>
          -- `mem::swap(&mut self.last_chords, &mut chords)`
          if p.last_chords.isEmpty then { p with last_chords := cs }
          else
            { p with last_chords := cs,
                     part := ⟨p.part.name, p.part.lines ++ [⟨[], p.last_chords⟩]⟩ }
      | none =>
          { p with
              part := ⟨p.part.name, p.part.lines ++ [⟨line, p.last_chords⟩]⟩,
              last_chords := [] }

/-- The blank-line flush of `parse_line`'s `BODY` arm: push the pending
chords as a final chord-only line if non-empty, then push the part and
reset it (`mem::take`). -/
def SongParser.flushPart (p : SongParser) : SongParser :=
  let p1 :=
    if p.last_chords.isEmpty then p
    else { p with part := ⟨p.part.name, p.part.lines ++ [⟨[], p.last_chords⟩]⟩,
                  last_chords := [] }
  { p1 with song := { p1.song with parts := p1.song.parts ++ [p1.part] },
            part := ⟨[], []⟩ }

/-- The `BODY` arm of `SongParser::parse_line`.  Note the Rust code only
`return`s early when the part is empty; after a flush it falls through to
`parse_part` on the same (blank) line. -/
def SongParser.parse_body (p : SongParser) (line : List Char) : SongParser :=
  if (rustTrim line).isEmpty then
    if p.part.is_empty then p
    else (p.flushPart).parse_part line
  else p.parse_part line

/-- `SongParser::parse_line` -/
def SongParser.parse_line (p : SongParser) (line : List Char) : SongParser :=
  match p.state with
  | PState.START =>
      if (rustTrim line).isEmpty then p
      else { p with song := { p.song with title := rustTrim line },
                    state := PState.DEFINITION }
  | PState.DEFINITION =>
      if (rustTrim line).isEmpty then p
      else
        match parse_metadata line with
        | some kv =>
            { p with song := { p.song with metadata := kv :: p.song.metadata } }
        | none =>
            -- state becomes BODY and the same line is re-processed
            SongParser.parse_body { p with state := PState.BODY } line
  | PState.BODY => p.parse_body line

/-- `SongParser::parse` -/
def SongParser.parse (content : List Char) : Song :=
  let p := (rustLines content).foldl SongParser.parse_line defaultParser
  (p.parse_line []).song

/-! ## The LaTeX renderer

Rust strings are UTF-8 byte buffers: `String::len` counts bytes and
`String::insert_str` takes a byte index and panics when the index is not a
character boundary (or exceeds the length).  The embedding keeps `List Char`
but does the index arithmetic in bytes via `Char.utf8Size`; the panic is
`none`. -/

/-- `String::len`: the UTF-8 byte length. -/
def utf8Len (l : List Char) : Nat := (l.map Char.utf8Size).sum

/-- `String::insert_str(idx, ins)`: insert at byte index `idx`; `none` when
`idx` exceeds the length or falls inside a character. -/
def insertStr (l : List Char) (i : Nat) (ins : List Char) : Option (List Char) :=
  if i = 0 then some (ins ++ l)
  else
    match l with
    | [] => none
    | c :: cs =>
        if i < c.utf8Size then none
        else (insertStr cs (i - c.utf8Size) ins).map (fun r => c :: r)

/-- Insertion into a sorted-ascending chord list (by `pos`, the `Ord` of
`SongChord`). -/
def insChord (c : SongChord) : List SongChord → List SongChord
  | [] => [c]
  | d :: ds => if c.pos ≤ d.pos then c :: d :: ds else d :: insChord c ds

/-- `self.chords.sort_unstable(); self.chords.reverse();`: the chords sorted
by descending position. -/
def sortChordsDesc (cs : List SongChord) : List SongChord :=
  (cs.foldr insChord []).reverse

/-- The inserted marker `format!("\\[{}]", chord.name)`. -/
def chordMarker (name : List Char) : List Char :=
  '\\' :: '[' :: (name ++ [']'])

/-- `SongLine::to_latex` (the in-place sort of the Rust method only affects
its own field; the returned string is modelled).  `none` is a panic of
`String::insert_str`. -/
def SongLine.toLatex (l : SongLine) : Option (List Char) :=
  if l.chords.isEmpty then some (l.text ++ ['\n'])
  else
    match sortChordsDesc l.chords with
    | [] => some (l.text ++ ['\n'])
    | c0 :: rest =>
        let out := l.text
        let diff : Int := (c0.pos : Int) - (utf8Len out : Int)
        let out := if 0 < diff then out ++ List.replicate diff.toNat ' ' else out
        match (c0 :: rest).foldlM
            (fun o (c : SongChord) => insertStr o c.pos (chordMarker c.name)) out with
        | none => none
        | some out2 =>
            if l.text.isEmpty then
              some ("\\nolyrics\x7b".data ++ out2 ++ ['\x7d', '\n'])
            else some (out2 ++ ['\n'])

/-- The lower-cased name matches `^verse (\d)+$` (decimal digits; the
embedding uses the ASCII digits, which is all any claim exercises). -/
def isVerseNum (l : List Char) : Bool :=
  match l with
  | 'v' :: 'e' :: 'r' :: 's' :: 'e' :: ' ' :: ds => !ds.isEmpty && ds.all Char.isDigit
  | _ => false

/-- `SongPart::to_latex` (`to_lowercase` modelled per-character). -/
def SongPart.toLatex (pt : SongPart) : Option (List Char) :=
  let lower := pt.name.map Char.toLower
  let begin_ : List Char :=
    if lower = "chorus".data then "\\beginchorus\n".data
    else if isVerseNum lower then "\\beginverse\n".data
    else "\\beginverse*\n".data ++ "\t\\textbf\x7b".data ++ pt.name ++ ":\x7d\n".data
  let end_ : List Char :=
    if lower = "chorus".data then "\\endchorus\n".data else "\\endverse\n".data
  match pt.lines.foldlM
      (fun (o : List Char) (li : SongLine) =>
        (li.toLatex).map (fun s => o ++ '\t' :: s)) begin_ with
  | none => none
  | some o => some (o ++ end_)

/-- `Song::to_latex` (note the Rust code writes `[by={artist}` without a
closing bracket; the embedding reproduces it). -/
def Song.toLatex (s : Song) : Option (List Char) :=
  let b := "\\beginsong\x7b".data ++ s.title ++ ['\x7d']
  let b := b ++
    (match getMeta s.metadata "artist".data with
     | some a => "[by=\x7b".data ++ a ++ ['\x7d']
     | none => [])
  let b := b ++ "\n\n".data
  match s.parts.foldlM
      (fun (o : List Char) (pt : SongPart) =>
        pt.toLatex.map (fun r => o ++ r ++ ['\n'])) b with
  | none => none
  | some o => some (o ++ "\\endsong\n".data)

/-! ## Correctness of the derivative matcher -/

@[simp]
theorem matches_emp_iff {s : List Char} : Matches RE.emp s ↔ False := by
  constructor
  · intro h; cases h
  · exact False.elim

theorem matches_eps_iff {s : List Char} : Matches RE.eps s ↔ s = [] := by
  constructor
  · intro h; cases h; rfl
  · rintro rfl; exact Matches.eps

theorem matches_ch_iff {c : Char} {s : List Char} :
    Matches (RE.ch c) s ↔ s = [c] := by
  constructor
  · intro h; cases h; rfl
  · rintro rfl; exact Matches.ch c

theorem matches_alt_iff {r1 r2 : RE} {s : List Char} :
    Matches (RE.alt r1 r2) s ↔ Matches r1 s ∨ Matches r2 s := by
  constructor
  · intro h; cases h with
    | altL h => exact Or.inl h
    | altR h => exact Or.inr h
  · rintro (h | h)
    · exact Matches.altL h
    · exact Matches.altR h

theorem matches_cat_iff {r1 r2 : RE} {s : List Char} :
    Matches (RE.cat r1 r2) s ↔
      ∃ s1 s2, s = s1 ++ s2 ∧ Matches r1 s1 ∧ Matches r2 s2 := by
  constructor
  · intro h; cases h with
    | cat h1 h2 => exact ⟨_, _, rfl, h1, h2⟩
  · rintro ⟨s1, s2, rfl, h1, h2⟩; exact Matches.cat h1 h2

theorem matches_mkAlt {r1 r2 : RE} {s : List Char} :
    Matches (mkAlt r1 r2) s ↔ Matches (RE.alt r1 r2) s := by
  unfold mkAlt
  split_ifs with h1 h2
  · subst h1; rw [matches_alt_iff]; simp
  · subst h2; rw [matches_alt_iff]; simp
  · rfl

theorem matches_mkCat {r1 r2 : RE} {s : List Char} :
    Matches (mkCat r1 r2) s ↔ Matches (RE.cat r1 r2) s := by
  unfold mkCat
  split_ifs with h1 h2 h3 h4
  · subst h1
    simp only [matches_emp_iff, matches_cat_iff, false_iff, not_exists]
    rintro s1 s2 ⟨rfl, m1, m2⟩
    exact m1
  · subst h2
    simp only [matches_emp_iff, matches_cat_iff, false_iff, not_exists]
    rintro s1 s2 ⟨rfl, m1, m2⟩
    exact m2
  · subst h3
    rw [matches_cat_iff]
    constructor
    · intro m; exact ⟨[], s, rfl, Matches.eps, m⟩
    · rintro ⟨s1, s2, rfl, m1, m2⟩; cases m1; simpa using m2
  · subst h4
    rw [matches_cat_iff]
    constructor
    · intro m; exact ⟨s, [], by simp, m, Matches.eps⟩
    · rintro ⟨s1, s2, rfl, m1, m2⟩; cases m2; simpa using m1
  · rfl

theorem nullable_iff {r : RE} : nullable r = true ↔ Matches r [] := by
  induction r with
  | emp => simp [nullable]
  | eps => simp [nullable, matches_eps_iff]
  | ch c => simp [nullable, matches_ch_iff]
  | alt r1 r2 ih1 ih2 => simp [nullable, matches_alt_iff, ih1, ih2]
  | cat r1 r2 ih1 ih2 =>
      simp only [nullable, Bool.and_eq_true, ih1, ih2, matches_cat_iff]
      constructor
      · rintro ⟨h1, h2⟩; exact ⟨[], [], rfl, h1, h2⟩
      · rintro ⟨s1, s2, h, h1, h2⟩
        obtain ⟨rfl, rfl⟩ := List.append_eq_nil.mp h.symm
        exact ⟨h1, h2⟩
  | star r _ =>
      simp only [nullable, true_iff]
      exact Matches.starNil

theorem star_inv_aux {r0 : RE} {l : List Char} (h : Matches r0 l) :
    ∀ r : RE, r0 = RE.star r →
      l = [] ∨ ∃ t u, t ≠ [] ∧ l = t ++ u ∧ Matches r t ∧ Matches (RE.star r) u := by
  induction h with
  | eps => exact fun r hr => RE.noConfusion hr
  | ch c => exact fun r hr => RE.noConfusion hr
  | altL _ _ => exact fun r hr => RE.noConfusion hr
  | altR _ _ => exact fun r hr => RE.noConfusion hr
  | cat _ _ _ _ => exact fun r hr => RE.noConfusion hr
  | starNil => exact fun r _ => Or.inl rfl
  | @starCons r' s1 s2 h1 h2 ih1 ih2 =>
      intro r hr
      injection hr with hr'
      subst hr'
      by_cases hs : s1 = []
      · subst hs; simpa using ih2 _ rfl
      · exact Or.inr ⟨s1, s2, hs, rfl, h1, h2⟩

theorem star_inv {r : RE} {l : List Char} (h : Matches (RE.star r) l) :
    l = [] ∨ ∃ t u, t ≠ [] ∧ l = t ++ u ∧ Matches r t ∧ Matches (RE.star r) u :=
  star_inv_aux h r rfl

theorem matches_deriv : ∀ (r : RE) (a : Char) (s : List Char),
    Matches (deriv r a) s ↔ Matches r (a :: s) := by
  intro r
  induction r with
  | emp => intro a s; simp [deriv]
  | eps =>
      intro a s; simp only [deriv, matches_emp_iff, false_iff, matches_eps_iff]
      simp
  | ch c =>
      intro a s
      simp only [deriv]
      split_ifs with h
      · subst h; simp [matches_eps_iff, matches_ch_iff]
      · simp only [matches_emp_iff, false_iff, matches_ch_iff]
        intro hc
        injection hc with hc1 hc2
        exact h hc1
  | alt r1 r2 ih1 ih2 =>
      intro a s
      simp only [deriv, matches_mkAlt, matches_alt_iff, ih1, ih2]
  | cat r1 r2 ih1 ih2 =>
      intro a s
      simp only [deriv]
      split_ifs with hn
      · rw [matches_mkAlt, matches_alt_iff, matches_mkCat, matches_cat_iff, ih2,
          matches_cat_iff]
        constructor
        · rintro (⟨s1, s2, rfl, m1, m2⟩ | m2)
          · exact ⟨a :: s1, s2, rfl, (ih1 a s1).mp m1, m2⟩
          · exact ⟨[], a :: s, rfl, nullable_iff.mp hn, m2⟩
        · rintro ⟨s1, s2, heq, m1, m2⟩
          rcases List.append_eq_cons_iff.mp heq.symm with ⟨rfl, rfl⟩ | ⟨t, rfl, rfl⟩
          · exact Or.inr m2
          · exact Or.inl ⟨t, s2, rfl, (ih1 a t).mpr m1, m2⟩
      · rw [matches_mkCat, matches_cat_iff, matches_cat_iff]
        constructor
        · rintro ⟨s1, s2, rfl, m1, m2⟩
          exact ⟨a :: s1, s2, rfl, (ih1 a s1).mp m1, m2⟩
        · rintro ⟨s1, s2, heq, m1, m2⟩
          rcases List.append_eq_cons_iff.mp heq.symm with ⟨rfl, rfl⟩ | ⟨t, rfl, rfl⟩
          · exact absurd (nullable_iff.mpr m1) (by simp [hn])
          · exact ⟨t, s2, rfl, (ih1 a t).mpr m1, m2⟩
  | star r ih =>
      intro a s
      simp only [deriv, matches_mkCat, matches_cat_iff]
      constructor
      · rintro ⟨s1, s2, rfl, m1, m2⟩
        exact Matches.starCons ((ih a s1).mp m1) m2
      · intro h
        rcases star_inv h with h0 | ⟨t, u, ht, heq, m1, m2⟩
        · exact absurd h0 (by simp)
        · cases t with
          | nil => exact absurd rfl ht
          | cons b t' =>
              rw [List.cons_append] at heq
              injection heq with e1 e2
              subst e1
              subst e2
              exact ⟨t', u, rfl, (ih a t').mpr m1, m2⟩

theorem reMatch_iff : ∀ (s : List Char) (r : RE), reMatch r s = true ↔ Matches r s := by
  intro s
  induction s with
  | nil => intro r; exact nullable_iff
  | cons a s ih =>
      intro r
      have : reMatch r (a :: s) = reMatch (deriv r a) s := rfl
      rw [this, ih (deriv r a)]
      exact matches_deriv r a s

/-! ## The code regex and the spec grammar have the same language -/

theorem cat_congr {a1 a2 b1 b2 : RE}
    (h1 : ∀ s, Matches a1 s ↔ Matches b1 s)
    (h2 : ∀ s, Matches a2 s ↔ Matches b2 s) :
    ∀ s, Matches (RE.cat a1 a2) s ↔ Matches (RE.cat b1 b2) s := by
  intro s
  rw [matches_cat_iff, matches_cat_iff]
  constructor
  · rintro ⟨s1, s2, rfl, m1, m2⟩; exact ⟨s1, s2, rfl, (h1 s1).mp m1, (h2 s2).mp m2⟩
  · rintro ⟨s1, s2, rfl, m1, m2⟩; exact ⟨s1, s2, rfl, (h1 s1).mpr m1, (h2 s2).mpr m2⟩

theorem alt_congr {a1 a2 b1 b2 : RE}
    (h1 : ∀ s, Matches a1 s ↔ Matches b1 s)
    (h2 : ∀ s, Matches a2 s ↔ Matches b2 s) :
    ∀ s, Matches (RE.alt a1 a2) s ↔ Matches (RE.alt b1 b2) s := by
  intro s
  rw [matches_alt_iff, matches_alt_iff]
  exact or_congr (h1 s) (h2 s)

theorem chAlts_iff {cs : List Char} {s : List Char} :
    Matches (chAlts cs) s ↔ ∃ c ∈ cs, s = [c] := by
  induction cs with
  | nil => simp [chAlts, alts]
  | cons c cs ih =>
      simp only [chAlts, alts, List.map_cons, List.foldr_cons, matches_alt_iff,
        matches_ch_iff]
      rw [show (List.foldr RE.alt RE.emp (cs.map RE.ch)) = chAlts cs from rfl, ih]
      simp

theorem root_langEq : ∀ s, Matches rootCode s ↔ Matches rootSpec s := by
  intro s
  rw [show rootCode = chAlts ['C', 'D', 'E', 'F', 'G', 'A', 'B'] from rfl,
    show rootSpec = chAlts ['A', 'B', 'C', 'D', 'E', 'F', 'G'] from rfl,
    chAlts_iff, chAlts_iff]
  constructor
  · rintro ⟨c, hc, rfl⟩
    refine ⟨c, ?_, rfl⟩
    simp only [List.mem_cons, List.not_mem_nil, or_false] at hc ⊢
    tauto
  · rintro ⟨c, hc, rfl⟩
    refine ⟨c, ?_, rfl⟩
    simp only [List.mem_cons, List.not_mem_nil, or_false] at hc ⊢
    tauto

theorem iff_refl_fun (r : RE) : ∀ s, Matches r s ↔ Matches r s := fun _ => Iff.rfl

theorem chord_langEq : ∀ s, Matches chordRE s ↔ Matches specChordRE s := by
  have hslash : ∀ s, Matches slashCode s ↔ Matches slashSpec s :=
    cat_congr (iff_refl_fun _) (cat_congr root_langEq (iff_refl_fun _))
  exact cat_congr root_langEq
    (cat_congr (iff_refl_fun _)
      (cat_congr (iff_refl_fun _)
        (cat_congr (iff_refl_fun _)
          (cat_congr (iff_refl_fun _)
            (alt_congr hslash (iff_refl_fun _))))))

/-! ## Tokenization lemmas: `parse_chords` versus the space-split tokens -/

theorem dropWhile_eq_drop {α : Type} (p : α → Bool) :
    ∀ l : List α, l.dropWhile p = l.drop (l.takeWhile p).length := by
  intro l
  induction l with
  | nil => rfl
  | cons c cs ih =>
      by_cases h : p c <;>
        simp [List.takeWhile_cons, List.dropWhile_cons, h, ih]

theorem dropWhile_head_not {α : Type} {p : α → Bool} :
    ∀ (l : List α) {d : α} {r2 : List α}, l.dropWhile p = d :: r2 → p d = false := by
  intro l
  induction l with
  | nil => intro d r2 h; exact absurd h (by simp)
  | cons c cs ih =>
      intro d r2 h
      by_cases hc : p c
      · rw [List.dropWhile_cons_of_pos hc] at h; exact ih h
      · rw [List.dropWhile_cons_of_neg hc] at h
        injection h with h1 h2
        subst h1
        exact Bool.of_not_eq_true hc

theorem wordsPos_nil (i : Nat) : wordsPos [] i = [] := by
  rw [wordsPos]

theorem wordsPos_cons (c : Char) (rest : List Char) (i : Nat) :
    wordsPos (c :: rest) i =
      if c = ' ' then wordsPos rest (i + 1)
      else
        (c :: rest.takeWhile (fun x => x ≠ ' '), i) ::
          wordsPos (rest.dropWhile (fun x => x ≠ ' '))
            (i + (1 + (rest.takeWhile (fun x => x ≠ ' ')).length)) := by
  rw [wordsPos]

theorem wordsPos_allspace : ∀ (l : List Char), (∀ c ∈ l, c = ' ') → ∀ i, wordsPos l i = [] := by
  intro l
  induction l with
  | nil => intro _ i; exact wordsPos_nil i
  | cons c rest ih =>
      intro h i
      have hc : c = ' ' := h c (List.mem_cons_self c rest)
      rw [wordsPos_cons, if_pos hc]
      exact ih (fun x hx => h x (List.mem_cons_of_mem c hx)) (i + 1)

theorem wordsPos_ge : ∀ (n : Nat) (l : List Char) (i : Nat), l.length ≤ n →
    ∀ p ∈ wordsPos l i, i ≤ p.2 := by
  intro n
  induction n with
  | zero =>
      intro l i h
      obtain rfl := List.length_eq_zero.mp (Nat.le_zero.mp h)
      simp [wordsPos_nil]
  | succ n ih =>
      intro l i h
      cases l with
      | nil => simp [wordsPos_nil]
      | cons c rest =>
          rw [wordsPos_cons]
          by_cases hc : c = ' '
          · rw [if_pos hc]
            intro p hp
            have := ih rest (i + 1) (by simpa using h) p hp
            omega
          · rw [if_neg hc]
            intro p hp
            rcases List.mem_cons.mp hp with rfl | hp'
            · exact le_refl i
            · have hlen : (rest.dropWhile (fun x => x ≠ ' ')).length ≤ n := by
                have := (List.dropWhile_suffix
                  (l := rest) (p := fun x => decide (x ≠ ' '))).length_le
                simp only [List.length_cons] at h
                omega
              have := ih _ _ hlen p hp'
              omega

theorem wordsPos_chain : ∀ (n : Nat) (l : List Char) (i : Nat), l.length ≤ n →
    List.Chain' (fun a b : List Char × Nat => a.2 ≤ b.2) (wordsPos l i) := by
  intro n
  induction n with
  | zero =>
      intro l i h
      obtain rfl := List.length_eq_zero.mp (Nat.le_zero.mp h)
      simp [wordsPos_nil]
  | succ n ih =>
      intro l i h
      cases l with
      | nil => simp [wordsPos_nil]
      | cons c rest =>
          rw [wordsPos_cons]
          by_cases hc : c = ' '
          · rw [if_pos hc]
            exact ih rest (i + 1) (by simpa using h)
          · rw [if_neg hc]
            have hlen : (rest.dropWhile (fun x => x ≠ ' ')).length ≤ n := by
              have := (List.dropWhile_suffix
                (l := rest) (p := fun x => decide (x ≠ ' '))).length_le
              simp only [List.length_cons] at h
              omega
            rw [List.chain'_cons']
            refine ⟨?_, ih _ _ hlen⟩
            intro y hy
            have hmem : y ∈ wordsPos (rest.dropWhile (fun x => x ≠ ' '))
                (i + (1 + (rest.takeWhile (fun x => x ≠ ' ')).length)) :=
              List.mem_of_mem_head? hy
            have := wordsPos_ge n _ _ hlen y hmem
            simp only
            omega

theorem parseChordsGo_run : ∀ (w rest word : List Char) (chords : List SongChord)
    (pos start : Nat), (∀ c ∈ w, c ≠ ' ') →
    parseChordsGo (w ++ rest) word chords pos start =
      parseChordsGo rest (word ++ w) chords (pos + w.length) start := by
  intro w
  induction w with
  | nil => intro rest word chords pos start _; simp
  | cons c w ih =>
      intro rest word chords pos start h
      have hc : c ≠ ' ' := h c (List.mem_cons_self c w)
      rw [List.cons_append]
      show parseChordsGo (c :: (w ++ rest)) word chords pos start = _
      rw [parseChordsGo, if_neg hc,
        ih rest (word ++ [c]) chords (pos + 1) start
          (fun x hx => h x (List.mem_cons_of_mem c hx))]
      have e1 : (word ++ [c]) ++ w = word ++ c :: w := by simp
      have e2 : pos + 1 + w.length = pos + (c :: w).length := by
        simp only [List.length_cons]; omega
      rw [e1, e2]

theorem parseChordsGo_end (word : List Char) (chords : List SongChord)
    (pos start : Nat) (hword : word ≠ []) :
    parseChordsGo [] word chords pos start =
      (if is_chord word then some (chords ++ [⟨word, start⟩]) else none) := by
  rw [parseChordsGo, if_neg (by simpa [List.isEmpty_iff] using hword)]

theorem parseChordsGo_space (rest2 word : List Char) (chords : List SongChord)
    (pos start : Nat) (hword : word ≠ []) :
    parseChordsGo (' ' :: rest2) word chords pos start =
      (if is_chord word then
        parseChordsGo rest2 [] (chords ++ [⟨word, start⟩]) (pos + 1) (pos + 1)
      else none) := by
  rw [parseChordsGo, if_pos rfl, if_neg (by simpa [List.isEmpty_iff] using hword)]

theorem parseChordsGo_clean : ∀ (n : Nat) (cs : List Char) (chords : List SongChord)
    (pos : Nat), cs.length ≤ n →
    parseChordsGo cs [] chords pos pos =
      (if (wordsPos cs pos).all (fun p => is_chord p.1) then
        some (chords ++ (wordsPos cs pos).map (fun p => SongChord.mk p.1 p.2))
      else none) := by
  intro n
  induction n with
  | zero =>
      intro cs chords pos h
      obtain rfl := List.length_eq_zero.mp (Nat.le_zero.mp h)
      simp [parseChordsGo, wordsPos_nil]
  | succ n ih =>
      intro cs chords pos h
      cases cs with
      | nil => simp [parseChordsGo, wordsPos_nil]
      | cons c rest =>
          by_cases hc : c = ' '
          · subst hc
            rw [wordsPos_cons, if_pos rfl, parseChordsGo, if_pos rfl]
            simp only [List.isEmpty_nil, if_pos rfl]
            exact ih rest chords (pos + 1) (by simpa using h)
          · have hw : ∀ x ∈ c :: rest.takeWhile (fun y => y ≠ ' '), x ≠ ' ' := by
              intro x hx
              rcases List.mem_cons.mp hx with rfl | hx'
              · exact hc
              · simpa using List.mem_takeWhile_imp hx'
            have hsplit : c :: rest =
                (c :: rest.takeWhile (fun y => y ≠ ' ')) ++
                  rest.dropWhile (fun y => y ≠ ' ') := by
              simp [List.takeWhile_append_dropWhile]
            rw [show parseChordsGo (c :: rest) [] chords pos pos =
                parseChordsGo ((c :: rest.takeWhile (fun y => y ≠ ' ')) ++
                  rest.dropWhile (fun y => y ≠ ' ')) [] chords pos pos from by
                rw [← hsplit],
              parseChordsGo_run _ _ _ _ _ _ hw, List.nil_append,
              wordsPos_cons, if_neg hc]
            have hlen : (rest.dropWhile (fun y => y ≠ ' ')).length ≤ n := by
              have := (List.dropWhile_suffix
                (l := rest) (p := fun y => decide (y ≠ ' '))).length_le
              simp only [List.length_cons] at h
              omega
            cases hdrop : rest.dropWhile (fun y => y ≠ ' ') with
            | nil =>
                rw [parseChordsGo_end _ _ _ _ (by simp), wordsPos_nil]
                by_cases hch : is_chord (c :: rest.takeWhile (fun y => y ≠ ' ')) <;>
                  simp [hch]
            | cons d rest2 =>
                have hd : d = ' ' := by
                  have := dropWhile_head_not _ hdrop
                  simpa using this
                subst hd
                rw [parseChordsGo_space _ _ _ _ _ (by simp)]
                have hlen2 : rest2.length ≤ n := by
                  rw [hdrop] at hlen
                  simp only [List.length_cons] at hlen
                  omega
                by_cases hch : is_chord (c :: rest.takeWhile (fun y => y ≠ ' '))
                · rw [if_pos hch]
                  have harith : pos + (c :: rest.takeWhile (fun y => y ≠ ' ')).length + 1 =
                      pos + (1 + (rest.takeWhile (fun y => y ≠ ' ')).length) + 1 := by
                    simp only [List.length_cons]; omega
                  rw [harith, ih rest2 _ _ hlen2, wordsPos_cons, if_pos rfl]
                  simp only [List.all_cons, hch, Bool.true_and, List.map_cons]
                  by_cases hall : (wordsPos rest2
                      (pos + (1 + (rest.takeWhile (fun y => y ≠ ' ')).length) + 1)).all
                      (fun p => is_chord p.1)
                  · rw [if_pos hall, if_pos hall]
                    simp [List.append_assoc]
                  · rw [if_neg hall, if_neg hall]
                · rw [if_neg hch]
                  have hfalse := Bool.of_not_eq_true hch
                  rw [List.all_cons, hfalse, Bool.false_and,
                    if_neg (by simp)]

theorem wordsPos_loc : ∀ (n : Nat) (l0 : List Char) (k : Nat),
    (l0.drop k).length ≤ n →
    (∀ c, (l0.drop k).head? = some c → c ≠ ' ' → (k = 0 ∨ l0[k - 1]? = some ' ')) →
    ∀ p ∈ wordsPos (l0.drop k) k,
      p.1 ≠ [] ∧ (p.2 = 0 ∨ l0[p.2 - 1]? = some ' ') ∧
        (l0.drop p.2).takeWhile (fun x => x ≠ ' ') = p.1 := by
  intro n
  induction n with
  | zero =>
      intro l0 k h _
      obtain e := List.length_eq_zero.mp (Nat.le_zero.mp h)
      rw [e, wordsPos_nil]
      simp
  | succ n ih =>
      intro l0 k h hpre
      cases hdk : l0.drop k with
      | nil => rw [wordsPos_nil]; simp
      | cons c rest =>
          have hrest : l0.drop (k + 1) = rest := by
            have h1 : List.drop 1 (List.drop k l0) = List.drop (k + 1) l0 :=
              List.drop_drop 1 k l0
            rw [← h1, hdk]
            simp
          have hlenrest : rest.length ≤ n := by
            have := congrArg List.length hdk
            simp only [List.length_cons] at this
            omega
          rw [wordsPos_cons]
          by_cases hc : c = ' '
          · rw [if_pos hc]
            have hk : l0[k]? = some ' ' := by
              have h0 : (List.drop k l0)[0]? = l0[k + 0]? := List.getElem?_drop l0 k 0
              rw [hdk] at h0
              subst hc
              simpa using h0.symm
            have hpre' : ∀ c', (l0.drop (k + 1)).head? = some c' → c' ≠ ' ' →
                (k + 1 = 0 ∨ l0[k + 1 - 1]? = some ' ') := by
              intro c' _ _
              right
              simpa using hk
            have := ih l0 (k + 1) (by rw [hrest]; exact hlenrest) hpre'
            rw [hrest] at this
            exact this
          · rw [if_neg hc]
            intro p hp
            rcases List.mem_cons.mp hp with rfl | hp'
            · refine ⟨by simp, hpre c (by rw [hdk]; rfl) hc, ?_⟩
              rw [hdk, List.takeWhile_cons_of_pos (by simpa using hc)]
            · have e2 : rest.dropWhile (fun x => x ≠ ' ') =
                  l0.drop (k + (1 + (rest.takeWhile (fun x => x ≠ ' ')).length)) := by
                rw [dropWhile_eq_drop (fun x => x ≠ ' ') rest, ← hrest, List.drop_drop]
                congr 1
                omega
              have hpre2 : ∀ c',
                  (l0.drop (k + (1 + (rest.takeWhile (fun x => x ≠ ' ')).length))).head? =
                    some c' → c' ≠ ' ' →
                  (k + (1 + (rest.takeWhile (fun x => x ≠ ' ')).length) = 0 ∨
                    l0[k + (1 + (rest.takeWhile (fun x => x ≠ ' ')).length) - 1]? =
                      some ' ') := by
                intro c' hc' hne
                exfalso
                rw [← e2] at hc'
                cases hdw : rest.dropWhile (fun x => x ≠ ' ') with
                | nil => rw [hdw] at hc'; exact Option.noConfusion hc'
                | cons d r2 =>
                    rw [hdw] at hc'
                    have hd : d = ' ' := by simpa using dropWhile_head_not _ hdw
                    have : c' = d := by injection hc' with hh; exact hh.symm
                    exact hne (this.trans hd)
              have hlen2 :
                  (l0.drop (k + (1 + (rest.takeWhile (fun x => x ≠ ' ')).length))).length
                    ≤ n := by
                rw [← e2]
                have := (List.dropWhile_suffix
                  (l := rest) (p := fun x => decide (x ≠ ' '))).length_le
                omega
              have := ih l0 _ hlen2 hpre2
              rw [← e2] at this
              exact this p hp'

theorem token_next (l w : List Char) (j : Nat) (hw : w ≠ [])
    (ht : (l.drop j).takeWhile (fun x => x ≠ ' ') = w) :
    l[j + w.length]? = some ' ' ∨ j + w.length = l.length := by
  have hsplit : l.drop j = w ++ (l.drop j).dropWhile (fun x => x ≠ ' ') := by
    rw [← ht, List.takeWhile_append_dropWhile]
  have hidx : l[j + w.length]? = (l.drop j)[w.length]? := by
    rw [List.getElem?_drop]
  have hlen_take : w.length ≤ (l.drop j).length := by
    calc w.length = ((l.drop j).takeWhile (fun x => x ≠ ' ')).length := by rw [ht]
    _ ≤ (l.drop j).length := (List.takeWhile_sublist _).length_le
  have hlen_drop : (l.drop j).length = l.length - j := List.length_drop j l
  have hne : l.drop j ≠ [] := by
    intro h0
    rw [h0] at ht
    exact hw (ht.symm.trans rfl)
  have hjlt : j < l.length := by
    rcases Nat.lt_or_ge j l.length with hlt | hge
    · exact hlt
    · exfalso
      exact hne (List.drop_eq_nil_of_le hge)
  cases hdw : (l.drop j).dropWhile (fun x => x ≠ ' ') with
  | nil =>
      right
      have hlens := congrArg List.length hsplit
      rw [hdw] at hlens
      simp only [List.length_append, List.length_nil, Nat.add_zero] at hlens
      omega
  | cons d r2 =>
      left
      have hd : d = ' ' := by simpa using dropWhile_head_not _ hdw
      rw [hidx, hsplit, hdw, List.getElem?_append_right (le_refl _)]
      simp [hd]

/-- `parse_chords` in terms of the space-split tokens. -/
theorem parse_chords_words (l : List Char) :
    parse_chords l =
      (if (wordsPos l 0).all (fun p => is_chord p.1) then
        some ((wordsPos l 0).map (fun p => SongChord.mk p.1 p.2))
      else none) := by
  have := parseChordsGo_clean l.length l [] 0 le_rfl
  simpa [parse_chords] using this

/-! ## Parser state-machine lemmas -/

theorem parse_part_song (p : SongParser) (line : List Char) :
    (p.parse_part line).song = p.song := by
  unfold SongParser.parse_part
  split
  · rfl
  · split
    · split_ifs <;> rfl
    · rfl

theorem parse_part_state (p : SongParser) (line : List Char) :
    (p.parse_part line).state = p.state := by
  unfold SongParser.parse_part
  split
  · rfl
  · split
    · split_ifs <;> rfl
    · rfl

theorem part_not_empty_cases {pt : SongPart} (h : ¬pt.is_empty = true) :
    pt.name ≠ [] ∨ pt.lines ≠ [] := by
  simp only [SongPart.is_empty, Bool.and_eq_true, List.isEmpty_iff] at h
  tauto

theorem parse_body_parts_inv (p : SongParser) (line : List Char)
    (h : ∀ pt ∈ p.song.parts, pt.name ≠ [] ∨ pt.lines ≠ []) :
    ∀ pt ∈ (p.parse_body line).song.parts, pt.name ≠ [] ∨ pt.lines ≠ [] := by
  unfold SongParser.parse_body
  split_ifs with h1 h2
  · exact h
  · rw [parse_part_song]
    unfold SongParser.flushPart
    split_ifs with h3
    · intro pt hpt
      rcases List.mem_append.mp hpt with hin | hlast
      · exact h pt hin
      · obtain rfl := List.mem_singleton.mp hlast
        exact part_not_empty_cases h2
    · intro pt hpt
      rcases List.mem_append.mp hpt with hin | hlast
      · exact h pt hin
      · obtain rfl := List.mem_singleton.mp hlast
        right
        simp
  · rw [parse_part_song]
    exact h

theorem parse_line_parts_inv (p : SongParser) (line : List Char)
    (h : ∀ pt ∈ p.song.parts, pt.name ≠ [] ∨ pt.lines ≠ []) :
    ∀ pt ∈ (p.parse_line line).song.parts, pt.name ≠ [] ∨ pt.lines ≠ [] := by
  obtain ⟨song, state, lc, part⟩ := p
  cases state with
  | START =>
      show ∀ pt ∈ (SongParser.parse_line ⟨song, PState.START, lc, part⟩ line).song.parts, _
      unfold SongParser.parse_line
      split_ifs <;> exact h
  | DEFINITION =>
      simp only [SongParser.parse_line]
      split_ifs with h1
      · exact h
      · cases hm : parse_metadata line with
        | some kv => exact h
        | none => exact parse_body_parts_inv ⟨song, PState.BODY, lc, part⟩ line h
  | BODY =>
      exact parse_body_parts_inv _ line h

theorem parse_parts_inv (content : List Char) :
    ∀ pt ∈ (SongParser.parse content).parts, pt.name ≠ [] ∨ pt.lines ≠ [] := by
  unfold SongParser.parse
  have hfold : ∀ (ls : List (List Char)) (p : SongParser),
      (∀ pt ∈ p.song.parts, pt.name ≠ [] ∨ pt.lines ≠ []) →
      ∀ pt ∈ (ls.foldl SongParser.parse_line p).song.parts,
        pt.name ≠ [] ∨ pt.lines ≠ [] := by
    intro ls
    induction ls with
    | nil => exact fun p h => h
    | cons l ls ih =>
        intro p h
        exact ih _ (parse_line_parts_inv p l h)
  exact parse_line_parts_inv _ []
    (hfold (rustLines content) defaultParser (by simp [defaultParser]))

/-! ## Line-splitting lemmas (`str::lines`) -/

theorem splitInclNl_append (l rest : List Char) (h : '\n' ∉ l) :
    splitInclNl (l ++ '\n' :: rest) = (l ++ ['\n']) :: splitInclNl rest := by
  induction l with
  | nil => simp [splitInclNl]
  | cons c cs ih =>
      have hc : c ≠ '\n' := by
        intro e
        exact h (e ▸ List.mem_cons_self c cs)
      rw [List.cons_append]
      show splitInclNl (c :: (cs ++ '\n' :: rest)) = _
      rw [splitInclNl, if_neg hc, ih (fun hm => h (List.mem_cons_of_mem c hm))]
      simp

theorem lineMap_lf (l : List Char) (h2 : l.getLast? ≠ some '\r') :
    lineMap (l ++ ['\n']) = l := by
  unfold lineMap
  rw [if_pos (by rw [List.getLast?_concat]), List.dropLast_concat, if_neg h2]

theorem lineMap_crlf (l : List Char) :
    lineMap (l ++ ['\r', '\n']) = l := by
  unfold lineMap
  have e : l ++ ['\r', '\n'] = (l ++ ['\r']) ++ ['\n'] := by simp
  rw [e, if_pos (by rw [List.getLast?_concat]), List.dropLast_concat,
    if_pos (by rw [List.getLast?_concat]), List.dropLast_concat]

theorem rustLines_lf : ∀ ls : List (List Char),
    (∀ l ∈ ls, '\n' ∉ l ∧ l.getLast? ≠ some '\r') →
    rustLines (ls.foldr (fun l acc => l ++ '\n' :: acc) []) = ls := by
  intro ls
  induction ls with
  | nil => intro _; rfl
  | cons l ls ih =>
      intro h
      have hl := h l (List.mem_cons_self l ls)
      unfold rustLines
      rw [List.foldr_cons, splitInclNl_append _ _ hl.1, List.map_cons,
        lineMap_lf _ hl.2]
      have := ih (fun x hx => h x (List.mem_cons_of_mem l hx))
      unfold rustLines at this
      rw [this]

theorem rustLines_crlf : ∀ ls : List (List Char),
    (∀ l ∈ ls, '\n' ∉ l) →
    rustLines (ls.foldr (fun l acc => l ++ '\r' :: '\n' :: acc) []) = ls := by
  intro ls
  induction ls with
  | nil => intro _; rfl
  | cons l ls ih =>
      intro h
      have hl := h l (List.mem_cons_self l ls)
      unfold rustLines
      have e : l ++ '\r' :: '\n' :: (ls.foldr (fun x acc => x ++ '\r' :: '\n' :: acc) []) =
          (l ++ ['\r']) ++ '\n' :: (ls.foldr (fun x acc => x ++ '\r' :: '\n' :: acc) []) := by
        simp
      rw [List.foldr_cons, e,
        splitInclNl_append _ _ (by
          intro hm
          rcases List.mem_append.mp hm with hm1 | hm2
          · exact hl hm1
          · simp at hm2),
        List.map_cons]
      have e2 : (l ++ ['\r']) ++ ['\n'] = l ++ ['\r', '\n'] := by simp
      rw [e2, lineMap_crlf]
      have := ih (fun x hx => h x (List.mem_cons_of_mem l hx))
      unfold rustLines at this
      rw [this]

/-! ## The claims -/

/-- C1: for every line, `parse_chords` returns `none` iff some maximal
space-delimited token fails `is_chord`; otherwise it returns one
`(name, offset)` entry per token in left-to-right order with non-decreasing
offsets, each offset being the token's start index counted in characters
(the index after the closest preceding ASCII space, or 0 at line start),
with only the ASCII space acting as delimiter; an empty or all-space line
yields `some []`. -/
theorem claim_c1 (l : List Char) :
    (parse_chords l = none ↔ ∃ p ∈ wordsPos l 0, is_chord p.1 = false) ∧
    (∀ cs, parse_chords l = some cs →
      cs = (wordsPos l 0).map (fun p => SongChord.mk p.1 p.2) ∧
      List.Chain' (fun a b : SongChord => a.pos ≤ b.pos) cs) ∧
    (∀ p ∈ wordsPos l 0,
      p.1 ≠ [] ∧ (∀ c ∈ p.1, c ≠ ' ') ∧
      (p.2 = 0 ∨ l[p.2 - 1]? = some ' ') ∧
      (l.drop p.2).takeWhile (fun x => x ≠ ' ') = p.1 ∧
      (l[p.2 + p.1.length]? = some ' ' ∨ p.2 + p.1.length = l.length)) ∧
    ((∀ c ∈ l, c = ' ') → parse_chords l = some []) := by
  refine ⟨?_, ?_, ?_, ?_⟩
  · rw [parse_chords_words]
    by_cases hall : (wordsPos l 0).all (fun p => is_chord p.1)
    · rw [if_pos hall]
      constructor
      · intro h; cases h
      · rintro ⟨p, hp, hfail⟩
        have := List.all_eq_true.mp hall p hp
        rw [hfail] at this
        cases this
    · rw [if_neg hall]
      constructor
      · intro _
        obtain ⟨p, hp, hfail⟩ :=
          List.all_eq_false.mp (Bool.of_not_eq_true hall)
        exact ⟨p, hp, Bool.of_not_eq_true hfail⟩
      · intro _; rfl
  · intro cs hcs
    rw [parse_chords_words] at hcs
    by_cases hall : (wordsPos l 0).all (fun p => is_chord p.1)
    · rw [if_pos hall] at hcs
      injection hcs with hcs
      subst hcs
      refine ⟨rfl, ?_⟩
      rw [List.chain'_map]
      exact wordsPos_chain l.length l 0 le_rfl
    · rw [if_neg hall] at hcs
      cases hcs
  · intro p hp
    have hloc := wordsPos_loc l.length l 0 (by simp)
      (by intro c _ _; exact Or.inl rfl) p (by simpa using hp)
    obtain ⟨hne, hprev, htake⟩ := hloc
    refine ⟨hne, ?_, hprev, htake, ?_⟩
    · intro c hc
      rw [← htake] at hc
      simpa using List.mem_takeWhile_imp hc
    · exact token_next l p.1 p.2 hne htake
  · intro hsp
    rw [parse_chords_words, wordsPos_allspace l hsp 0]
    simp

theorem claim_c1_witness :
    [SongChord.mk ['C'] 0, SongChord.mk ['D'] 2] =
      (wordsPos ['C', ' ', 'D'] 0).map (fun p => SongChord.mk p.1 p.2) ∧
    List.Chain' (fun a b : SongChord => a.pos ≤ b.pos)
      [SongChord.mk ['C'] 0, SongChord.mk ['D'] 2] :=
  (claim_c1 ['C', ' ', 'D']).2.1 _ (by decide)

/-- C2: in BODY state, when chord extraction succeeds while the pending
buffer is non-empty, the buffered set is appended immediately as a
standalone empty-text `Line` and the new set becomes the buffer; two
consecutive chord lines thus give two distinct empty-text `Line`s holding
the two sets in original order (concrete scenario in the second
conjunct). -/
theorem claim_c2 (p : SongParser) (l1 : List Char) (cs1 : List SongChord)
    (hstate : p.state = PState.BODY)
    (htrim : rustTrim l1 ≠ [])
    (hhdr : p.part.is_empty = true → partName l1 = none)
    (hchords : parse_chords l1 = some cs1)
    (hbuf : p.last_chords ≠ []) :
    p.parse_line l1 =
      { p with last_chords := cs1,
               part := ⟨p.part.name, p.part.lines ++ [⟨[], p.last_chords⟩]⟩ } ∧
    (SongParser.parse "T\nx:\nC D\nE F\n".data).parts =
      [⟨['x'], [⟨[], [⟨['C'], 0⟩, ⟨['D'], 2⟩]⟩,
                ⟨[], [⟨['E'], 0⟩, ⟨['F'], 2⟩]⟩]⟩] := by
  refine ⟨?_, by decide⟩
  obtain ⟨song, state, lc, part⟩ := p
  obtain rfl : state = PState.BODY := hstate
  simp only [SongParser.parse_line]
  unfold SongParser.parse_body
  rw [if_neg (by simpa [List.isEmpty_iff] using htrim)]
  unfold SongParser.parse_part
  have hscrut : (if (⟨song, PState.BODY, lc, part⟩ : SongParser).part.is_empty
      then partName l1 else none) = none := by
    by_cases hemp : part.is_empty
    · simpa [hemp] using hhdr hemp
    · simp [hemp]
  simp only [hscrut, hchords]
  rw [if_neg (by simpa [List.isEmpty_iff] using hbuf)]

theorem claim_c2_witness :
    SongParser.parse_line
        ⟨⟨['T'], [], []⟩, PState.BODY, [⟨['C'], 0⟩], ⟨['x'], []⟩⟩ ['D'] =
      ⟨⟨['T'], [], []⟩, PState.BODY, [⟨['D'], 0⟩],
        ⟨['x'], [⟨[], [⟨['C'], 0⟩]⟩]⟩⟩ :=
  (claim_c2 ⟨⟨['T'], [], []⟩, PState.BODY, [⟨['C'], 0⟩], ⟨['x'], []⟩⟩
    ['D'] [⟨['D'], 0⟩] rfl (by decide) (by decide) (by decide) (by decide)).1

/-- C3: the code bug at the blank-line boundary.  The flush itself appends
the pending-buffer line and the part as the claim states, and no Part with
empty name and zero lines is ever appended (second conjunct); but because
the Rust code falls through to `parse_part` on the blank line (missing
`return` under the "Otherwise" comment), a boundary line `"\t"` re-fills
the supposedly reset Part with a phantom `Line`, visible in the first
conjunct's second Part. -/
theorem claim_c3 :
    (SongParser.parse "T\nA:\nhello\n\t\n".data).parts =
      [⟨['A'], [⟨"hello".data, []⟩]⟩, ⟨[], [⟨['\t'], []⟩]⟩] ∧
    ∀ (content : List Char), ∀ pt ∈ (SongParser.parse content).parts,
      pt.name ≠ [] ∨ pt.lines ≠ [] :=
  ⟨by decide, fun content => parse_parts_inv content⟩

theorem claim_c3_witness :
    (⟨[], [⟨['x'], []⟩]⟩ : SongPart).name ≠ [] ∨
      (⟨[], [⟨['x'], []⟩]⟩ : SongPart).lines ≠ [] :=
  claim_c3.2 "T\nx".data _ (by decide)

/-- C4: `is_chord` agrees with the anchored §4.1 chord grammar on every
token, and decides the spec's examples as stated; the empty token never
matches. -/
theorem claim_c4 (s : List Char) :
    (is_chord s = true ↔ Matches specChordRE s) ∧
    is_chord ['C', 'm', '7'] = true ∧
    is_chord ['H'] = false ∧
    is_chord ['C', '/', 'G'] = true ∧
    is_chord ['C', 's', 'u', 's', '4', 'a', 'd', 'd', '9'] = true ∧
    is_chord ['C', 'x'] = false ∧
    is_chord [] = false :=
  ⟨(reMatch_iff s chordRE).trans (chord_langEq s),
    by decide, by decide, by decide, by decide, by decide, by decide⟩

theorem claim_c4_witness : Matches specChordRE ['C', 'm', '7'] :=
  (claim_c4 ['C', 'm', '7']).1.mp (by decide)

/-- C5: the code bug in `SongLine::to_latex`'s offset arithmetic.  The
`\nolyrics` wrapping of a chord-only line works as claimed (second
conjunct), but markers are inserted at UTF-8 byte offsets, not character
offsets: on text `"éa"` a chord at character offset 2 (the end of the
text) lands between `é` and `a` (first conjunct), where the claim requires
`"éa\[C]"`. -/
theorem claim_c5 :
    SongLine.toLatex ⟨['é', 'a'], [⟨['C'], 2⟩]⟩ =
      some ['é', '\\', '[', 'C', ']', 'a', '\n'] ∧
    SongLine.toLatex ⟨[], [⟨['C'], 0⟩]⟩ =
      some ['\\', 'n', 'o', 'l', 'y', 'r', 'i', 'c', 's', '\x7b',
            '\\', '[', 'C', ']', '\x7d', '\n'] := by
  exact ⟨by decide, by decide⟩

/-- C6: the renderer is not total: `String::insert_str` takes a byte index
and panics when a parser-produced character offset falls inside a
multi-byte character.  On the parser output for `"T\nC C\nAé B"` the chord
at offset 2 hits the middle of `é`, so `Song::to_latex` panics (modelled as
`none`), contradicting the claim that it never panics. -/
theorem claim_c6 :
    Song.toLatex (SongParser.parse "T\nC C\nAé B".data) = none := by decide

/-- C7: in DEFINITION state a matching line inserts `metadata[key] = value`
(overwriting, other keys untouched) with the state remaining DEFINITION,
where the separator of the pattern is the last `": "` occurrence (concrete
last-separator example in the final conjunct); a non-matching non-empty
line is re-processed with the state switched to BODY. -/
theorem claim_c7 (p : SongParser) (line : List Char)
    (hstate : p.state = PState.DEFINITION) (htrim : rustTrim line ≠ []) :
    (∀ k v, parse_metadata line = some (k, v) →
      p.parse_line line =
        { p with song := { p.song with metadata := (k, v) :: p.song.metadata } } ∧
      getMeta ((k, v) :: p.song.metadata) k = some v ∧
      (∀ k', k' ≠ k →
        getMeta ((k, v) :: p.song.metadata) k' = getMeta p.song.metadata k') ∧
      (p.parse_line line).state = PState.DEFINITION) ∧
    (parse_metadata line = none →
      p.parse_line line = SongParser.parse_line { p with state := PState.BODY } line) ∧
    parse_metadata ['a', ':', ' ', 'b', ':', ' ', 'c'] =
      some (['a', ':', ' ', 'b'], ['c']) := by
  obtain ⟨song, state, lc, part⟩ := p
  obtain rfl : state = PState.DEFINITION := hstate
  refine ⟨?_, ?_, by decide⟩
  · intro k v hm
    have heq : SongParser.parse_line ⟨song, PState.DEFINITION, lc, part⟩ line =
        ⟨⟨song.title, (k, v) :: song.metadata, song.parts⟩,
          PState.DEFINITION, lc, part⟩ := by
      simp only [SongParser.parse_line]
      rw [if_neg (by simpa [List.isEmpty_iff] using htrim)]
      simp only [hm]
    refine ⟨heq, ?_, ?_, by rw [heq]⟩
    · simp [getMeta]
    · intro k' hk'
      have hb : (k == k') = false := by
        simpa using (Ne.symm hk')
      simp [getMeta, List.find?_cons, hb]
  · intro hm
    simp only [SongParser.parse_line]
    rw [if_neg (by simpa [List.isEmpty_iff] using htrim)]
    simp only [hm]

theorem claim_c7_witness :
    SongParser.parse_line ⟨⟨['T'], [], []⟩, PState.DEFINITION, [], ⟨[], []⟩⟩
        "artist: Jane".data =
      ⟨⟨['T'], [("artist".data, "Jane".data)], []⟩,
        PState.DEFINITION, [], ⟨[], []⟩⟩ :=
  ((claim_c7 ⟨⟨['T'], [], []⟩, PState.DEFINITION, [], ⟨[], []⟩⟩
    "artist: Jane".data rfl (by decide)).1 "artist".data "Jane".data
    (by decide)).1

/-- C8: `parse` is total by construction (it returns a `Song` for every
input); the empty input yields a Song with empty title, empty metadata and
no parts, and LF and CR-LF terminated inputs parse identically. -/
theorem claim_c8 :
    SongParser.parse [] = ⟨[], [], []⟩ ∧
    ∀ ls : List (List Char),
      (∀ l ∈ ls, '\n' ∉ l ∧ l.getLast? ≠ some '\r') →
      SongParser.parse (ls.foldr (fun l acc => l ++ '\r' :: '\n' :: acc) []) =
        SongParser.parse (ls.foldr (fun l acc => l ++ '\n' :: acc) []) := by
  constructor
  · decide
  · intro ls h
    unfold SongParser.parse
    rw [rustLines_crlf ls (fun l hl => (h l hl).1), rustLines_lf ls h]

theorem claim_c8_witness :
    SongParser.parse ['a', '\r', '\n'] = SongParser.parse ['a', '\n'] :=
  claim_c8.2 [['a']] (by decide)

/-- C9: the code bug contradicting the claim that a line trimming to empty
never contributes content: the blank-boundary branch lacks a `return`
(despite the "Otherwise" comment), so the trims-to-empty line `"\t"` is
re-parsed as a body line and contributes a phantom lyric `Line` `"\t"` (and
a phantom Part) to the returned Song. -/
theorem claim_c9 :
    SongParser.parse "T\nA:\nhello\n\t\nworld".data =
      ⟨['T'], [], [⟨['A'], [⟨"hello".data, []⟩]⟩,
                   ⟨[], [⟨['\t'], []⟩, ⟨"world".data, []⟩]⟩]⟩ := by decide

/-- C10: a blank line in BODY with an absent Part is a no-op: the parser
state (including a non-empty pending chord buffer) is returned unchanged;
consequently buffered chords either attach across the boundary to the next
lyric line (second conjunct) or are silently dropped at end of input
(third conjunct). -/
theorem claim_c10 (p : SongParser) (line : List Char)
    (hstate : p.state = PState.BODY) (htrim : rustTrim line = [])
    (hempty : p.part.is_empty = true) :
    p.parse_line line = p ∧
    (SongParser.parse "T\nC\n\nhello".data).parts =
      [⟨[], [⟨"hello".data, [⟨['C'], 0⟩]⟩]⟩] ∧
    SongParser.parse "T\nC".data = ⟨['T'], [], []⟩ := by
  refine ⟨?_, by decide, by decide⟩
  obtain ⟨song, state, lc, part⟩ := p
  obtain rfl : state = PState.BODY := hstate
  simp only [SongParser.parse_line]
  unfold SongParser.parse_body
  rw [if_pos (by simpa [List.isEmpty_iff] using htrim), if_pos hempty]

theorem claim_c10_witness :
    SongParser.parse_line
        ⟨⟨['T'], [], []⟩, PState.BODY, [⟨['C'], 0⟩], ⟨[], []⟩⟩ [] =
      ⟨⟨['T'], [], []⟩, PState.BODY, [⟨['C'], 0⟩], ⟨[], []⟩⟩ :=
  (claim_c10 ⟨⟨['T'], [], []⟩, PState.BODY, [⟨['C'], 0⟩], ⟨[], []⟩⟩ []
    rfl (by decide) (by decide)).1

end Plainsong
